import Mathlib

/-!
Verification of the docx-translator script (src/run.py).

Strings are modelled as lists of characters.  The text-normalization
pipeline `clean_text`, the extraction pass over the document (body
paragraphs, then table rows / cells / paragraphs), the batched
translation dispatch with its scatter-by-offset result collection, and
the rewrite step that writes translated text back into the document are
each translated directly from the script.  The external translation API
is modelled as an oracle of type
`List (List Char) → Option (List (Option (List Char)))`, where `none`
models a raised exception and an entry `none` models a null result.
-/

namespace DocxT

/-- Characters removed by the first substitution of clean_text:
the regex class x00-x1F, x7F-x9F, u200B-u200F, u202A-u202E. -/
def isCtrlStrip (c : Char) : Bool :=
  (c.toNat ≤ 0x1F) || (0x7F ≤ c.toNat && c.toNat ≤ 0x9F) ||
  (0x200B ≤ c.toNat && c.toNat ≤ 0x200F) || (0x202A ≤ c.toNat && c.toNat ≤ 0x202E)

/-- The character set matched by Python's whitespace class for str
patterns (also the set stripped by str.strip). -/
def isPySpace (c : Char) : Bool :=
  (0x09 ≤ c.toNat && c.toNat ≤ 0x0D) || c.toNat == 0x20 ||
  (0x1C ≤ c.toNat && c.toNat ≤ 0x1F) || c.toNat == 0x85 || c.toNat == 0xA0 ||
  c.toNat == 0x1680 || (0x2000 ≤ c.toNat && c.toNat ≤ 0x200A) ||
  c.toNat == 0x2028 || c.toNat == 0x2029 || c.toNat == 0x202F ||
  c.toNat == 0x205F || c.toNat == 0x3000

/-- The nine punctuation characters of the repeated-punctuation regex
class of clean_text. -/
def isPunct (c : Char) : Bool :=
  c == '.' || c == ',' || c == '!' || c == '?' || c == ';' || c == ':' ||
  c == '(' || c == ')' || c == '-'

/-- First substitution of clean_text: each control character becomes a
space. -/
def ctrlToSpace (c : Char) : Char :=
  if isCtrlStrip c then ' ' else c

/-- Second substitution of clean_text: every maximal run of whitespace
characters becomes a single space.  The flag records whether the
previous character belonged to a whitespace run. -/
def collapseWsAux : Bool → List Char → List Char
  | _, [] => []
  | prevWs, c :: cs =>
    if isPySpace c then
      if prevWs then collapseWsAux true cs
      else ' ' :: collapseWsAux true cs
    else c :: collapseWsAux false cs

def collapseWs (l : List Char) : List Char := collapseWsAux false l

/-- Third substitution of clean_text: a maximal run of one repeated
punctuation character collapses to a single occurrence.  The argument
tracks the previously scanned character. -/
def collapsePunctAux : Option Char → List Char → List Char
  | _, [] => []
  | p, c :: cs =>
    if isPunct c && decide (p = some c) then collapsePunctAux p cs
    else c :: collapsePunctAux (some c) cs

def collapsePunct (l : List Char) : List Char := collapsePunctAux none l

/-- Python str.strip: drop whitespace from both ends. -/
def pyStrip (l : List Char) : List Char :=
  ((l.dropWhile isPySpace).reverse.dropWhile isPySpace).reverse

/-- clean_text from run.py: strip control characters, collapse
whitespace, collapse repeated punctuation, strip the ends. -/
def clean_text (l : List Char) : List Char :=
  pyStrip (collapsePunct (collapseWs (l.map ctrlToSpace)))

/-- The character class of the validity regex of extract_and_clean:
punctuation or a space. -/
def isPunctSpace (c : Char) : Bool := isPunct c || c == ' '

/-- re.match of the anchored one-or-more punctuation-or-space class:
a nonempty string all of whose characters lie in the class. -/
def matchesPunctSpaceOnly (l : List Char) : Bool :=
  !l.isEmpty && l.all isPunctSpace

/-- Validity test of extract_and_clean: nonempty after cleaning and not
matched by the punctuation-and-spaces regex. -/
def is_valid_text (l : List Char) : Bool :=
  !l.isEmpty && !matchesPunctSpaceOnly l

/-- A paragraph node: only its text matters for the translator. -/
structure Paragraph where
  text : List Char
deriving DecidableEq, Repr

structure Cell where
  paragraphs : List Paragraph
deriving DecidableEq, Repr

structure Row where
  cells : List Cell
deriving DecidableEq, Repr

structure Table where
  rows : List Row
deriving DecidableEq, Repr

/-- A document: its body paragraph list and its table list. -/
structure Document where
  paragraphs : List Paragraph
  tables : List Table
deriving DecidableEq, Repr

/-- extract_and_clean from run.py: returns (is_valid, cleaned text). -/
def extract_and_clean (p : Paragraph) : Bool × List Char :=
  let cleaned := clean_text p.text
  (is_valid_text cleaned, cleaned)

/-- One step of the extraction loops: a valid paragraph is appended
(as the pair of the node and its cleaned text) to the accumulator. -/
def collectStep (acc : List (Paragraph × List Char)) (p : Paragraph) :
    List (Paragraph × List Char) :=
  let r := extract_and_clean p
  if r.1 then acc ++ [(p, r.2)] else acc

/-- The ti list after the first loop: body paragraphs in order. -/
def tiBody (d : Document) : List (Paragraph × List Char) :=
  d.paragraphs.foldl collectStep []

/-- The ti list after both loops: body paragraphs, then each table's
rows, cells and cell paragraphs. -/
def tiAll (d : Document) : List (Paragraph × List Char) :=
  d.tables.foldl
    (fun acc t => t.rows.foldl
      (fun acc r => r.cells.foldl
        (fun acc c => c.paragraphs.foldl collectStep acc) acc) acc)
    (tiBody d)

/-- The at list: the cleaned strings of the collected nodes (built in
lockstep with ti in run.py). -/
def atList (d : Document) : List (List Char) :=
  (tiAll d).map Prod.snd

/-- Every paragraph of the document in traversal order: the body list,
then every table's rows, cells and cell paragraphs. -/
def docParas (d : Document) : List Paragraph :=
  d.paragraphs ++
    d.tables.flatMap (fun t => t.rows.flatMap
      (fun r => r.cells.flatMap (fun c => c.paragraphs)))

/-- Declarative form of the extraction: keep each valid paragraph with
its cleaned text. -/
def extractPairs (ps : List Paragraph) : List (Paragraph × List Char) :=
  ps.filterMap (fun p =>
    let r := extract_and_clean p
    if r.1 then some (p, r.2) else none)

/-! Normal-form predicates for the clean_text pipeline. -/

/-- Whitespace-normal form: every whitespace character is a plain space
and no two whitespace characters are adjacent.  The flag records
whether the previous character was whitespace. -/
def wsNormedB : Bool → List Char → Bool
  | _, [] => true
  | b, c :: cs =>
    if isPySpace c then ((c == ' ') && !b) && wsNormedB true cs
    else wsNormedB false cs

/-- Punctuation-normal form: no character is an identical punctuation
character repeated right after the previous one. -/
def pnNormedB : Option Char → List Char → Bool
  | _, [] => true
  | p, c :: cs => !(isPunct c && decide (p = some c)) && pnNormedB (some c) cs

/-- Whitespace flag induced by a previously scanned character. -/
def optWs : Option Char → Bool
  | none => false
  | some c => isPySpace c

@[simp] lemma isPySpace_space : isPySpace ' ' = true := by decide

lemma isPunct_not_space (c : Char) (h : isPunct c = true) : isPySpace c = false := by
  simp [isPunct] at h
  rcases h with ((((((((h | h) | h) | h) | h) | h) | h) | h) | h) <;> subst h <;> decide

lemma ws_of_collapse : ∀ (l : List Char) (b : Bool),
    wsNormedB b (collapseWsAux b l) = true := by
  intro l
  induction l with
  | nil => intro b; rfl
  | cons c cs ih =>
    intro b
    by_cases h : isPySpace c = true
    · cases b <;> simp [collapseWsAux, wsNormedB, h, ih]
    · simp at h
      simp [collapseWsAux, wsNormedB, h, ih]

lemma cw_id : ∀ (l : List Char) (b : Bool),
    wsNormedB b l = true → collapseWsAux b l = l := by
  intro l
  induction l with
  | nil => intro b _; rfl
  | cons c cs ih =>
    intro b hb
    by_cases h : isPySpace c = true
    · simp [wsNormedB, h] at hb
      obtain ⟨⟨hc, hbf⟩, hcs⟩ := hb
      subst hbf
      simp [collapseWsAux, h, hc, ih true hcs]
    · simp at h
      simp [wsNormedB, h] at hb
      simp [collapseWsAux, h, ih false hb]

lemma pn_of_collapse : ∀ (l : List Char) (p : Option Char),
    pnNormedB p (collapsePunctAux p l) = true := by
  intro l
  induction l with
  | nil => intro p; rfl
  | cons c cs ih =>
    intro p
    by_cases h : (isPunct c && decide (p = some c)) = true
    · simp only [collapsePunctAux, h, if_true]
      simp only [Bool.and_eq_true, decide_eq_true_eq] at h
      obtain ⟨hpc, hp⟩ := h
      subst hp
      exact ih (some c)
    · simp only [collapsePunctAux, h, if_false, Bool.false_eq_true]
      simp [pnNormedB, h, ih (some c)]

lemma cp_id : ∀ (l : List Char) (p : Option Char),
    pnNormedB p l = true → collapsePunctAux p l = l := by
  intro l
  induction l with
  | nil => intro p _; rfl
  | cons c cs ih =>
    intro p hp
    simp [pnNormedB] at hp
    obtain ⟨h1, h2⟩ := hp
    have hcond : (isPunct c && decide (p = some c)) = false := by
      rcases h1 with h | h
      · simp [h]
      · simp [h]
    simp [collapsePunctAux, hcond, ih (some c) h2]

lemma cp_pres : ∀ (l : List Char) (p : Option Char),
    wsNormedB (optWs p) l = true →
    wsNormedB (optWs p) (collapsePunctAux p l) = true := by
  intro l
  induction l with
  | nil => intro p _; rfl
  | cons c cs ih =>
    intro p hws
    by_cases h : (isPunct c && decide (p = some c)) = true
    · simp only [collapsePunctAux, h, if_true]
      simp only [Bool.and_eq_true, decide_eq_true_eq] at h
      obtain ⟨hpc, hp⟩ := h
      have hcs : isPySpace c = false := isPunct_not_space c hpc
      have hop : optWs p = false := by rw [hp]; simpa [optWs] using hcs
      rw [hp] at hws ⊢
      have hws' : wsNormedB (optWs (some c)) cs = true := by
        simpa [wsNormedB, hcs, optWs] using hws
      simpa [optWs, hcs] using ih (some c) hws'
    · simp only [collapsePunctAux, h, if_false, Bool.false_eq_true]
      by_cases hsp : isPySpace c = true
      · simp [wsNormedB, hsp] at hws ⊢
        refine ⟨hws.1, ?_⟩
        have := ih (some c) (by simpa [optWs, hsp] using hws.2)
        simpa [optWs, hsp] using this
      · simp at hsp
        simp [wsNormedB, hsp] at hws ⊢
        have := ih (some c) (by simpa [optWs, hsp] using hws)
        simpa [optWs, hsp] using this

lemma pn_dropWhile : ∀ (l : List Char) (p : Option Char) (q : Char → Bool),
    pnNormedB p l = true → pnNormedB none (l.dropWhile q) = true := by
  intro l
  induction l with
  | nil => intro p q _; rfl
  | cons c cs ih =>
    intro p q hp
    simp [pnNormedB] at hp
    by_cases hq : q c = true
    · simp only [List.dropWhile_cons, hq, if_true]
      exact ih (some c) q hp.2
    · simp at hq
      simp only [List.dropWhile_cons, hq, Bool.false_eq_true, if_false]
      simp [pnNormedB, hp.2]

lemma ws_dropWhile : ∀ (l : List Char) (b : Bool),
    wsNormedB b l = true → wsNormedB false (l.dropWhile isPySpace) = true := by
  intro l
  induction l with
  | nil => intro b _; rfl
  | cons c cs ih =>
    intro b hb
    by_cases h : isPySpace c = true
    · simp [wsNormedB, h] at hb
      simp only [List.dropWhile_cons, h, if_true]
      exact ih true hb.2
    · simp at h
      simp [wsNormedB, h] at hb
      simp only [List.dropWhile_cons, h, Bool.false_eq_true, if_false]
      simp [wsNormedB, h, hb]

lemma ws_append_left : ∀ (a t : List Char) (b : Bool),
    wsNormedB b (a ++ t) = true → wsNormedB b a = true := by
  intro a
  induction a with
  | nil => intro t b _; rfl
  | cons c cs ih =>
    intro t b hb
    by_cases h : isPySpace c = true
    · simp [wsNormedB, h] at hb ⊢
      exact ⟨hb.1, ih t true hb.2⟩
    · simp at h
      simp [wsNormedB, h] at hb ⊢
      exact ih t false hb

lemma pn_append_left : ∀ (a t : List Char) (p : Option Char),
    pnNormedB p (a ++ t) = true → pnNormedB p a = true := by
  intro a
  induction a with
  | nil => intro t p _; rfl
  | cons c cs ih =>
    intro t p hp
    simp [pnNormedB] at hp ⊢
    exact ⟨hp.1, ih t (some c) hp.2⟩

/-! dropWhile facts. -/

lemma dropWhile_idem (l : List Char) (q : Char → Bool) :
    (l.dropWhile q).dropWhile q = l.dropWhile q := by
  induction l with
  | nil => rfl
  | cons c cs ih =>
    by_cases h : q c = true
    · simp [List.dropWhile_cons, h, ih]
    · simp at h
      simp [List.dropWhile_cons, h]

lemma exists_dropWhile_eq_append (l : List Char) (q : Char → Bool) :
    ∃ s, l = s ++ l.dropWhile q := by
  induction l with
  | nil => exact ⟨[], rfl⟩
  | cons c cs ih =>
    by_cases h : q c = true
    · obtain ⟨s, hs⟩ := ih
      exact ⟨c :: s, by simp [List.dropWhile_cons, h]; exact hs⟩
    · simp at h
      exact ⟨[], by simp [List.dropWhile_cons, h]⟩

lemma dropWhile_head_not (l : List Char) (q : Char → Bool) (c : Char)
    (cs : List Char) (h : l.dropWhile q = c :: cs) : q c = false := by
  induction l with
  | nil => simp at h
  | cons a as ih =>
    by_cases ha : q a = true
    · simp [List.dropWhile_cons, ha] at h
      exact ih h
    · simp at ha
      simp [List.dropWhile_cons, ha] at h
      rw [← h.1]; exact ha

lemma pyStrip_idem (l : List Char) : pyStrip (pyStrip l) = pyStrip l := by
  have hA : (pyStrip l).dropWhile isPySpace = pyStrip l := by
    rcases hw : pyStrip l with _ | ⟨c, rest⟩
    · rfl
    · obtain ⟨s, hs⟩ := exists_dropWhile_eq_append
        (l.dropWhile isPySpace).reverse isPySpace
      have hy : l.dropWhile isPySpace = pyStrip l ++ s.reverse := by
        have := congrArg List.reverse hs
        simpa [pyStrip, List.reverse_append] using this
      have hcfalse : isPySpace c = false := by
        apply dropWhile_head_not l isPySpace c (rest ++ s.reverse)
        rw [hy, hw]; rfl
      simp [List.dropWhile_cons, hcfalse]
  have hB : (pyStrip l).reverse.dropWhile isPySpace = (pyStrip l).reverse := by
    have hrev : (pyStrip l).reverse =
        ((l.dropWhile isPySpace).reverse).dropWhile isPySpace := by
      simp [pyStrip]
    rw [hrev, dropWhile_idem]
  show ((((pyStrip l).dropWhile isPySpace).reverse).dropWhile isPySpace).reverse = pyStrip l
  rw [hA, hB, List.reverse_reverse]

/-! Invariants of clean_text output. -/

lemma map_id_on (l : List Char) (f : Char → Char)
    (h : ∀ c ∈ l, f c = c) : l.map f = l := by
  induction l with
  | nil => rfl
  | cons c cs ih =>
    simp only [List.map_cons]
    rw [h c (List.mem_cons_self c cs), ih fun x hx => h x (List.mem_cons_of_mem c hx)]

lemma mem_collapseWsAux : ∀ (l : List Char) (b : Bool) (c : Char),
    c ∈ collapseWsAux b l → c = ' ' ∨ c ∈ l := by
  intro l
  induction l with
  | nil => intro b c h; simp [collapseWsAux] at h
  | cons a as ih =>
    intro b c h
    by_cases ha : isPySpace a = true
    · cases b with
      | true =>
        simp only [collapseWsAux, ha, if_true] at h
        rcases ih true c h with h1 | h1
        · exact Or.inl h1
        · exact Or.inr (List.mem_cons_of_mem a h1)
      | false =>
        simp only [collapseWsAux, ha, if_true] at h
        rcases List.mem_cons.mp h with h1 | h1
        · exact Or.inl h1
        · rcases ih true c h1 with h2 | h2
          · exact Or.inl h2
          · exact Or.inr (List.mem_cons_of_mem a h2)
    · simp at ha
      simp only [collapseWsAux, ha, Bool.false_eq_true, if_false] at h
      rcases List.mem_cons.mp h with h1 | h1
      · exact Or.inr (h1 ▸ List.mem_cons_self a as)
      · rcases ih false c h1 with h2 | h2
        · exact Or.inl h2
        · exact Or.inr (List.mem_cons_of_mem a h2)

lemma mem_collapsePunctAux : ∀ (l : List Char) (p : Option Char) (c : Char),
    c ∈ collapsePunctAux p l → c ∈ l := by
  intro l
  induction l with
  | nil => intro p c h; simp [collapsePunctAux] at h
  | cons a as ih =>
    intro p c h
    by_cases ha : (isPunct a && decide (p = some a)) = true
    · simp only [collapsePunctAux, ha, if_true] at h
      exact List.mem_cons_of_mem a (ih p c h)
    · simp only [collapsePunctAux, ha, Bool.false_eq_true, if_false] at h
      rcases List.mem_cons.mp h with h1 | h1
      · exact h1 ▸ List.mem_cons_self a as
      · exact List.mem_cons_of_mem a (ih (some a) c h1)

lemma mem_dropWhile (l : List Char) (q : Char → Bool) (c : Char)
    (h : c ∈ l.dropWhile q) : c ∈ l := by
  obtain ⟨s, hs⟩ := exists_dropWhile_eq_append l q
  rw [hs]
  exact List.mem_append_right s h

lemma mem_pyStrip (l : List Char) (c : Char) (h : c ∈ pyStrip l) : c ∈ l := by
  simp only [pyStrip, List.mem_reverse] at h
  have h1 := mem_dropWhile _ isPySpace c h
  rw [List.mem_reverse] at h1
  exact mem_dropWhile l isPySpace c h1

lemma noCtrl_clean (l : List Char) (c : Char) (h : c ∈ clean_text l) :
    isCtrlStrip c = false := by
  have h1 := mem_pyStrip _ c h
  have h2 := mem_collapsePunctAux _ none c h1
  rcases mem_collapseWsAux _ false c h2 with h3 | h3
  · subst h3; decide
  · rcases List.mem_map.mp h3 with ⟨a, _, ha2⟩
    rw [← ha2]
    unfold ctrlToSpace
    by_cases hc : isCtrlStrip a = true
    · simp only [hc, if_true]
      decide
    · simp at hc
      simp [hc]

lemma ws_clean (l : List Char) : wsNormedB false (clean_text l) = true := by
  have h1 : wsNormedB false (collapseWsAux false (l.map ctrlToSpace)) = true :=
    ws_of_collapse _ false
  have h2 : wsNormedB false (collapsePunct (collapseWs (l.map ctrlToSpace))) = true := by
    have := cp_pres (collapseWs (l.map ctrlToSpace)) none (by simpa [optWs, collapseWs] using h1)
    simpa [optWs, collapsePunct] using this
  set y := collapsePunct (collapseWs (l.map ctrlToSpace)) with hy
  have h3 : wsNormedB false (y.dropWhile isPySpace) = true := ws_dropWhile y false h2
  obtain ⟨s, hs⟩ := exists_dropWhile_eq_append (y.dropWhile isPySpace).reverse isPySpace
  have hsplit : y.dropWhile isPySpace = clean_text l ++ s.reverse := by
    have := congrArg List.reverse hs
    simpa [clean_text, pyStrip, List.reverse_append, hy] using this
  exact ws_append_left _ s.reverse false (hsplit ▸ h3)

lemma pn_clean (l : List Char) : pnNormedB none (clean_text l) = true := by
  have h2 : pnNormedB none (collapsePunct (collapseWs (l.map ctrlToSpace))) = true :=
    pn_of_collapse _ none
  set y := collapsePunct (collapseWs (l.map ctrlToSpace)) with hy
  have h3 : pnNormedB none (y.dropWhile isPySpace) = true :=
    pn_dropWhile y none isPySpace h2
  obtain ⟨s, hs⟩ := exists_dropWhile_eq_append (y.dropWhile isPySpace).reverse isPySpace
  have hsplit : y.dropWhile isPySpace = clean_text l ++ s.reverse := by
    have := congrArg List.reverse hs
    simpa [clean_text, pyStrip, List.reverse_append, hy] using this
  exact pn_append_left _ s.reverse none (hsplit ▸ h3)

lemma pyStrip_clean (l : List Char) : pyStrip (clean_text l) = clean_text l :=
  pyStrip_idem _

/-- C9: the normalization function clean_text is idempotent: for every
input string s, clean_text (clean_text s) = clean_text s. -/
theorem C9_clean_text_idempotent (l : List Char) :
    clean_text (clean_text l) = clean_text l := by
  have h1 : (clean_text l).map ctrlToSpace = clean_text l :=
    map_id_on _ _ (fun c hc => by
      unfold ctrlToSpace
      simp [noCtrl_clean l c hc])
  have h2 : collapseWs (clean_text l) = clean_text l :=
    cw_id _ false (ws_clean l)
  have h3 : collapsePunct (clean_text l) = clean_text l :=
    cp_id _ none (pn_clean l)
  calc clean_text (clean_text l)
      = pyStrip (collapsePunct (collapseWs ((clean_text l).map ctrlToSpace))) := rfl
    _ = clean_text l := by rw [h1, h2, h3, pyStrip_clean]

/-! Batched translation dispatch (run.py lines 135-168).

The external translate_batch call is an oracle
`tr : List (List Char) → Option (List (Option (List Char)))`:
`none` models a raised exception, and an entry `none` of a successful
result models a null string returned by the API. -/

/-- Oracle type of the external translation API. -/
def Translator : Type :=
  List (List Char) → Option (List (Option (List Char)))

/-- Batch size: BS = 100 in run.py. -/
def BS : Nat := 100

/-- The per-string guard inside tb: keep the API result if it is truthy
and nonempty after strip, otherwise keep the original string. -/
def pyOrRes (r : Option (List Char)) (txt : List Char) : List Char :=
  match r with
  | none => txt
  | some s => if !s.isEmpty && !(pyStrip s).isEmpty then s else txt

/-- tb from run.py: call the API on a batch; on success replace empty
results by the original strings, on any exception return the originals. -/
def tb (tr : Translator) (txts : List (List Char)) : List (List Char) :=
  match tr txts with
  | none => txts
  | some res => (res.zip txts).map (fun rt => pyOrRes rt.1 rt.2)

/-- The Python slice at[i : i+bs]. -/
def sliceAt (l : List (List Char)) (i bs : Nat) : List (List Char) :=
  (l.drop i).take bs

/-- Number of submitted batches: the length of range(0, total, BS). -/
def numBatches (total : Nat) : Nat := (total + BS - 1) / BS

/-- The submitted tasks, each an offset (as recorded in futs) paired
with its contiguous batch at[i : i+BS]. -/
def tasks (l : List (List Char)) : List (Nat × List (List Char)) :=
  (List.range (numBatches l.length)).map
    (fun k => (BS * k, sliceAt l (BS * k) BS))

/-- The scatter loop body: for idx in range(len(res)), write res[idx]
at start_idx + idx when that index is below total. -/
def writeBack : List (Option (List Char)) → Nat → List (List Char) →
    List (Option (List Char))
  | ta, _, [] => ta
  | ta, k, r :: rs =>
    writeBack (if k < ta.length then ta.set k (some r) else ta) (k + 1) rs

/-- The whole as_completed loop: starting from the preallocated
[None]*total array, process the completed tasks in the given completion
order, scattering each task's tb result at its recorded offset. -/
def runAll (tr : Translator) (l : List (List Char))
    (order : List (Nat × List (List Char))) : List (Option (List Char)) :=
  order.foldl (fun ta x => writeBack ta x.1 (tb tr x.2))
    (List.replicate l.length none)

lemma writeBack_length : ∀ (rs : List (List Char))
    (ta : List (Option (List Char))) (k : Nat),
    (writeBack ta k rs).length = ta.length := by
  intro rs
  induction rs with
  | nil => intro ta k; rfl
  | cons r rs ih =>
    intro ta k
    show (writeBack (if k < ta.length then ta.set k (some r) else ta)
        (k + 1) rs).length = ta.length
    rw [ih]
    by_cases h : k < ta.length
    · simp [h]
    · simp [h]

lemma writeBack_getElem?_notin : ∀ (rs : List (List Char))
    (ta : List (Option (List Char))) (k i : Nat),
    (i < k ∨ k + rs.length ≤ i) →
    (writeBack ta k rs)[i]? = ta[i]? := by
  intro rs
  induction rs with
  | nil => intro ta k i _; rfl
  | cons r rs ih =>
    intro ta k i hout
    simp only [List.length_cons] at hout
    have hik : i ≠ k := by omega
    show (writeBack (if k < ta.length then ta.set k (some r) else ta)
        (k + 1) rs)[i]? = ta[i]?
    rw [ih _ (k + 1) i (by omega)]
    by_cases h : k < ta.length
    · simp only [h, if_true]
      exact List.getElem?_set_ne (Ne.symm hik)
    · simp [h]

lemma writeBack_getElem?_in : ∀ (rs : List (List Char))
    (ta : List (Option (List Char))) (k i : Nat),
    k ≤ i → i < k + rs.length → i < ta.length →
    (writeBack ta k rs)[i]? = some rs[i - k]? := by
  intro rs
  induction rs with
  | nil =>
    intro ta k i h1 h2 _
    simp only [List.length_nil] at h2
    omega
  | cons r rs ih =>
    intro ta k i h1 h2 h3
    have hk : k < ta.length := Nat.lt_of_le_of_lt h1 h3
    show (writeBack (if k < ta.length then ta.set k (some r) else ta)
        (k + 1) rs)[i]? = some (r :: rs)[i - k]?
    simp only [hk, if_true]
    by_cases hik : i = k
    · subst hik
      rw [writeBack_getElem?_notin rs _ (i + 1) i (Or.inl (Nat.lt_succ_self i))]
      rw [List.getElem?_set_self hk]
      simp
    · have hlt : k + 1 ≤ i := by omega
      rw [ih _ (k + 1) i hlt (by simp only [List.length_cons] at h2; omega)
        (by simpa using h3)]
      have : i - k = (i - (k + 1)) + 1 := by omega
      rw [this, List.getElem?_cons_succ]

lemma tb_length_le (tr : Translator) (txts : List (List Char)) :
    (tb tr txts).length ≤ txts.length := by
  unfold tb
  cases tr txts with
  | none => exact Nat.le_refl _
  | some res =>
    simp [List.length_zip]

lemma sliceAt_length_le (l : List (List Char)) (i bs : Nat) :
    (sliceAt l i bs).length ≤ bs := by
  simp [sliceAt]

lemma sliceAt_length (l : List (List Char)) (i bs : Nat) :
    (sliceAt l i bs).length = min bs (l.length - i) := by
  simp [sliceAt]

lemma mem_tasks {l : List (List Char)} {x : Nat × List (List Char)} :
    x ∈ tasks l ↔
      ∃ k, k < numBatches l.length ∧ x = (BS * k, sliceAt l (BS * k) BS) := by
  simp only [tasks, List.mem_map, List.mem_range]
  constructor
  · rintro ⟨k, hk, rfl⟩; exact ⟨k, hk, rfl⟩
  · rintro ⟨k, hk, rfl⟩; exact ⟨k, hk, rfl⟩

lemma tasks_nodup (l : List (List Char)) : (tasks l).Nodup := by
  apply List.Nodup.map _ (List.nodup_range _)
  intro a b hab
  have : BS * a = BS * b := congrArg Prod.fst hab
  simp [BS] at this
  omega

lemma fold_length (tr : Translator) : ∀ (os : List (Nat × List (List Char)))
    (ta : List (Option (List Char))),
    (os.foldl (fun ta x => writeBack ta x.1 (tb tr x.2)) ta).length = ta.length := by
  intro os
  induction os with
  | nil => intro ta; rfl
  | cons o os ih =>
    intro ta
    show (os.foldl _ (writeBack ta o.1 (tb tr o.2))).length = ta.length
    rw [ih, writeBack_length]

lemma fold_untouched (tr : Translator) (i : Nat) :
    ∀ (os : List (Nat × List (List Char))) (ta : List (Option (List Char))),
    (∀ x ∈ os, i < x.1 ∨ x.1 + (tb tr x.2).length ≤ i) →
    (os.foldl (fun ta x => writeBack ta x.1 (tb tr x.2)) ta)[i]? = ta[i]? := by
  intro os
  induction os with
  | nil => intro ta _; rfl
  | cons o os ih =>
    intro ta hos
    show (os.foldl _ (writeBack ta o.1 (tb tr o.2)))[i]? = ta[i]?
    rw [ih _ (fun x hx => hos x (List.mem_cons_of_mem o hx))]
    exact writeBack_getElem?_notin _ ta o.1 i (hos o (List.mem_cons_self o os))

/-- A task other than the one whose batch holds index i never writes
index i: the batches are disjoint contiguous BS-sized slices. -/
lemma task_not_cover (tr : Translator) (l : List (List Char)) (i : Nat)
    (x : Nat × List (List Char)) (hx : x ∈ tasks l)
    (hne : x ≠ (BS * (i / BS), sliceAt l (BS * (i / BS)) BS)) :
    i < x.1 ∨ x.1 + (tb tr x.2).length ≤ i := by
  obtain ⟨k, hk, rfl⟩ := mem_tasks.mp hx
  have hlen : (tb tr (sliceAt l (BS * k) BS)).length ≤ BS :=
    Nat.le_trans (tb_length_le tr _) (sliceAt_length_le l _ _)
  have hkne : k ≠ i / BS := by
    intro hkk
    exact hne (by rw [hkk])
  simp only [BS] at hlen hkne ⊢
  omega

/-- Order-preservation core: after processing any completion order of
the submitted tasks, the entry at index i of the results array is
exactly the i mod BS-th entry of the tb output of the batch that starts
at offset BS * (i / BS) — the batch holding source string i. -/
lemma runAll_getElem? (tr : Translator) (l : List (List Char))
    (order : List (Nat × List (List Char))) (hp : order.Perm (tasks l))
    (i : Nat) (hi : i < l.length) :
    (runAll tr l order)[i]? =
      some ((tb tr (sliceAt l (BS * (i / BS)) BS))[i % BS]?) := by
  have hk0 : i / BS < numBatches l.length := by
    simp only [numBatches, BS]
    omega
  have ht0mem : (BS * (i / BS), sliceAt l (BS * (i / BS)) BS) ∈ tasks l :=
    mem_tasks.mpr ⟨i / BS, hk0, rfl⟩
  have ht0order := (hp.mem_iff).mpr ht0mem
  obtain ⟨s, t, hsplit⟩ := List.append_of_mem ht0order
  have hnd : (s ++ (BS * (i / BS), sliceAt l (BS * (i / BS)) BS) :: t).Nodup := by
    rw [← hsplit]
    exact (hp.nodup_iff).mpr (tasks_nodup l)
  have hs0 : (BS * (i / BS), sliceAt l (BS * (i / BS)) BS) ∉ s := by
    intro hmem
    rcases List.nodup_append.mp hnd with ⟨_, _, hdisj⟩
    exact hdisj hmem (List.mem_cons_self _ _)
  have ht0 : (BS * (i / BS), sliceAt l (BS * (i / BS)) BS) ∉ t := by
    rcases List.nodup_append.mp hnd with ⟨_, hnd2, _⟩
    exact (List.nodup_cons.mp hnd2).1
  have hsmem : ∀ x ∈ s, x ∈ tasks l := by
    intro x hx
    exact (hp.mem_iff).mp (hsplit ▸ List.mem_append_left _ hx)
  have htmem : ∀ x ∈ t, x ∈ tasks l := by
    intro x hx
    refine (hp.mem_iff).mp (hsplit ▸ ?_)
    exact List.mem_append_right _ (List.mem_cons_of_mem _ hx)
  have hsnc : ∀ x ∈ s, i < x.1 ∨ x.1 + (tb tr x.2).length ≤ i := by
    intro x hx
    exact task_not_cover tr l i x (hsmem x hx) (fun he => hs0 (he ▸ hx))
  have htnc : ∀ x ∈ t, i < x.1 ∨ x.1 + (tb tr x.2).length ≤ i := by
    intro x hx
    exact task_not_cover tr l i x (htmem x hx) (fun he => ht0 (he ▸ hx))
  unfold runAll
  rw [hsplit, List.foldl_append]
  set init : List (Option (List Char)) := List.replicate l.length none with hinit
  set ta1 := s.foldl (fun ta x => writeBack ta x.1 (tb tr x.2)) init with hta1
  have hta1len : ta1.length = l.length := by
    rw [hta1, fold_length, hinit, List.length_replicate]
  show (t.foldl _ (writeBack ta1 (BS * (i / BS)) (tb tr (sliceAt l (BS * (i / BS)) BS))))[i]? = _
  rw [fold_untouched tr i t _ htnc]
  have hoff_le : BS * (i / BS) ≤ i := by
    simp only [BS]
    omega
  by_cases hcov : i % BS < (tb tr (sliceAt l (BS * (i / BS)) BS)).length
  · rw [writeBack_getElem?_in _ ta1 _ i (by simp only [BS] at hoff_le ⊢; omega)
      (by simp only [BS] at hcov ⊢; omega) (by omega)]
    have : i - BS * (i / BS) = i % BS := by
      simp only [BS]
      omega
    rw [this]
  · rw [writeBack_getElem?_notin _ ta1 _ i (by simp only [BS] at hcov ⊢; omega)]
    rw [hta1, fold_untouched tr i s init hsnc, hinit]
    have hleft : (List.replicate l.length (none : Option (List Char)))[i]? = some none := by
      rw [List.getElem?_replicate]
      simp [hi]
    rw [hleft]
    have hright : (tb tr (sliceAt l (BS * (i / BS)) BS))[i % BS]? = none :=
      List.getElem?_eq_none (by omega)
    rw [hright]

/-- C1: for every extracted source list and every completion order of
the batch translation tasks, after all tasks complete the entry at
position i of the results array corresponds to the source string at
position i: it is the i mod BS-th result of the task whose recorded
offset is BS * (i / BS), the batch that contains source string i, so
original order is preserved regardless of completion order. -/
theorem C1_order_preserved (tr : Translator) (l : List (List Char))
    (order : List (Nat × List (List Char))) (hp : order.Perm (tasks l))
    (i : Nat) (hi : i < l.length) :
    (runAll tr l order)[i]? =
      some ((tb tr (sliceAt l (BS * (i / BS)) BS))[i % BS]?) :=
  runAll_getElem? tr l order hp i hi

/-- Concrete source list of 101 strings, giving two batches. -/
def wlist1 : List (List Char) := List.replicate 101 (['a'])

/-- Concrete translation oracle that appends a letter to each string. -/
def wtr1 : Translator := fun txts => some (txts.map (fun t => some (t ++ ['b'])))

theorem C1_order_preserved_witness :
    ((tasks wlist1).reverse).Perm (tasks wlist1) ∧ 100 < wlist1.length ∧
    (runAll wtr1 wlist1 ((tasks wlist1).reverse))[100]? =
      some ((tb wtr1 (sliceAt wlist1 (BS * (100 / BS)) BS))[100 % BS]?) :=
  ⟨List.reverse_perm _, by decide,
   C1_order_preserved wtr1 wlist1 ((tasks wlist1).reverse)
     (List.reverse_perm _) 100 (by decide)⟩

/-- C2: if the translation call for a batch raises an exception, the
batch task returns the original input strings unchanged, and every
string of that batch is preserved unchanged in the results array. -/
theorem C2_batch_failure_preserved (tr : Translator) (l : List (List Char))
    (order : List (Nat × List (List Char))) (k : Nat)
    (hp : order.Perm (tasks l))
    (hfail : tr (sliceAt l (BS * k) BS) = none) :
    tb tr (sliceAt l (BS * k) BS) = sliceAt l (BS * k) BS ∧
    (∀ i, i < l.length → i / BS = k →
      (runAll tr l order)[i]? = some (l[i]?)) := by
  have htb : tb tr (sliceAt l (BS * k) BS) = sliceAt l (BS * k) BS := by
    simp [tb, hfail]
  refine ⟨htb, ?_⟩
  intro i hi hik
  rw [runAll_getElem? tr l order hp i hi, hik, htb]
  congr 1
  show ((l.drop (BS * k)).take BS)[i % BS]? = l[i]?
  rw [List.getElem?_take_of_lt (show i % BS < BS by simp only [BS]; omega)]
  rw [List.getElem?_drop]
  congr 1
  have hik' : i / 100 = k := by simpa only [BS] using hik
  simp only [BS]
  omega

/-- Concrete two-string source list (a single batch). -/
def wlist2 : List (List Char) := [['a'], ['b']]

/-- Concrete oracle that always raises. -/
def wtr2 : Translator := fun _ => none

theorem C2_batch_failure_preserved_witness :
    (tasks wlist2).Perm (tasks wlist2) ∧
    wtr2 (sliceAt wlist2 (BS * 0) BS) = none ∧
    1 < wlist2.length ∧ (1 : Nat) / BS = 0 ∧
    (runAll wtr2 wlist2 (tasks wlist2))[1]? = some (wlist2[1]?) :=
  ⟨List.Perm.refl _, rfl, by decide, by decide,
   (C2_batch_failure_preserved wtr2 wlist2 (tasks wlist2) 0
     (List.Perm.refl _) rfl).2 1 (by decide) (by decide)⟩

/-- C7: the batches are contiguous slices at offsets 0, BS, 2*BS, ...,
each of length at most BS; two distinct tasks write disjoint index
ranges [offset, offset + batch length), and the ranges cover every
index of the results array. -/
theorem C7_tasks_disjoint_cover (l : List (List Char)) :
    (∀ x ∈ tasks l,
      ∃ k, x.1 = BS * k ∧ x.2 = sliceAt l (BS * k) BS ∧ x.2.length ≤ BS) ∧
    (∀ x ∈ tasks l, ∀ y ∈ tasks l, x ≠ y →
      ∀ i, x.1 ≤ i → i < x.1 + x.2.length →
        ¬(y.1 ≤ i ∧ i < y.1 + y.2.length)) ∧
    (∀ i, i < l.length → ∃ x ∈ tasks l, x.1 ≤ i ∧ i < x.1 + x.2.length) := by
  refine ⟨?_, ?_, ?_⟩
  · intro x hx
    obtain ⟨k, hk, rfl⟩ := mem_tasks.mp hx
    exact ⟨k, rfl, rfl, sliceAt_length_le l _ _⟩
  · intro x hx y hy hne i hxi hxi2
    obtain ⟨k1, hk1, rfl⟩ := mem_tasks.mp hx
    obtain ⟨k2, hk2, rfl⟩ := mem_tasks.mp hy
    have hkne : k1 ≠ k2 := fun h => hne (by rw [h])
    rintro ⟨hyi, hyi2⟩
    have hl1 : (sliceAt l (BS * k1) BS).length ≤ BS := sliceAt_length_le l _ _
    have hl2 : (sliceAt l (BS * k2) BS).length ≤ BS := sliceAt_length_le l _ _
    simp only [BS] at hxi hxi2 hyi hyi2 hl1 hl2
    omega
  · intro i hi
    have hk0 : i / BS < numBatches l.length := by
      simp only [numBatches, BS]
      omega
    refine ⟨(BS * (i / BS), sliceAt l (BS * (i / BS)) BS),
      mem_tasks.mpr ⟨i / BS, hk0, rfl⟩, ?_, ?_⟩
    · simp only [BS]
      omega
    · rw [sliceAt_length]
      simp only [BS]
      omega

theorem C7_tasks_disjoint_cover_witness :
    (∃ x ∈ tasks wlist1, x.1 ≤ 100 ∧ 100 < x.1 + x.2.length) ∧
    ¬((BS * 1, sliceAt wlist1 (BS * 1) BS).1 ≤ 50 ∧
      50 < (BS * 1, sliceAt wlist1 (BS * 1) BS).1 +
        (BS * 1, sliceAt wlist1 (BS * 1) BS).2.length) :=
  ⟨(C7_tasks_disjoint_cover wlist1).2.2 100 (by decide),
   (C7_tasks_disjoint_cover wlist1).2.1
     (BS * 0, sliceAt wlist1 (BS * 0) BS) (by decide)
     (BS * 1, sliceAt wlist1 (BS * 1) BS) (by decide)
     (by decide) 50 (by decide) (by decide)⟩

/-! Extraction: the two collection loops equal a declarative
traverse-and-filter. -/

lemma foldl_collectStep : ∀ (ps : List Paragraph)
    (acc : List (Paragraph × List Char)),
    ps.foldl collectStep acc = acc ++ extractPairs ps := by
  intro ps
  induction ps with
  | nil => intro acc; simp [extractPairs]
  | cons p ps ih =>
    intro acc
    show ps.foldl collectStep (collectStep acc p) = acc ++ extractPairs (p :: ps)
    rw [ih]
    unfold collectStep extractPairs
    by_cases h : (extract_and_clean p).1 = true
    · simp [h, List.filterMap_cons]
    · simp at h
      simp [h, List.filterMap_cons]

lemma extractPairs_append (a b : List Paragraph) :
    extractPairs (a ++ b) = extractPairs a ++ extractPairs b := by
  unfold extractPairs
  exact List.filterMap_append _ _ _

lemma cellsFold : ∀ (cs : List Cell) (acc : List (Paragraph × List Char)),
    cs.foldl (fun acc c => c.paragraphs.foldl collectStep acc) acc =
      acc ++ extractPairs (cs.flatMap fun c => c.paragraphs) := by
  intro cs
  induction cs with
  | nil => intro acc; simp [extractPairs]
  | cons c cs ih =>
    intro acc
    show cs.foldl _ (c.paragraphs.foldl collectStep acc) = _
    rw [ih, foldl_collectStep]
    simp [List.flatMap_cons, extractPairs_append]

lemma rowsFold : ∀ (rs : List Row) (acc : List (Paragraph × List Char)),
    rs.foldl (fun acc r => r.cells.foldl
      (fun acc c => c.paragraphs.foldl collectStep acc) acc) acc =
      acc ++ extractPairs (rs.flatMap fun r =>
        r.cells.flatMap fun c => c.paragraphs) := by
  intro rs
  induction rs with
  | nil => intro acc; simp [extractPairs]
  | cons r rs ih =>
    intro acc
    show rs.foldl _ (r.cells.foldl _ acc) = _
    rw [ih, cellsFold]
    simp [List.flatMap_cons, extractPairs_append]

lemma tiAll_eq (d : Document) : tiAll d = extractPairs (docParas d) := by
  unfold tiAll tiBody docParas
  rw [foldl_collectStep]
  have htables : ∀ (ts : List Table) (acc : List (Paragraph × List Char)),
      ts.foldl (fun acc t => t.rows.foldl (fun acc r => r.cells.foldl
        (fun acc c => c.paragraphs.foldl collectStep acc) acc) acc) acc =
        acc ++ extractPairs (ts.flatMap fun t => t.rows.flatMap fun r =>
          r.cells.flatMap fun c => c.paragraphs) := by
    intro ts
    induction ts with
    | nil => intro acc; simp [extractPairs]
    | cons t ts ih =>
      intro acc
      show ts.foldl _ (t.rows.foldl _ acc) = _
      rw [ih, rowsFold]
      simp [List.flatMap_cons, extractPairs_append]
  rw [htables]
  simp [extractPairs_append]

lemma extract_and_clean_fst (p : Paragraph) :
    (extract_and_clean p).1 = is_valid_text (clean_text p.text) := rfl

lemma extract_and_clean_snd (p : Paragraph) :
    (extract_and_clean p).2 = clean_text p.text := rfl

lemma map_snd_extractPairs : ∀ ps : List Paragraph,
    (extractPairs ps).map Prod.snd =
      (ps.map (fun p => clean_text p.text)).filter is_valid_text := by
  intro ps
  induction ps with
  | nil => rfl
  | cons p ps ih =>
    unfold extractPairs at ih ⊢
    by_cases h : is_valid_text (clean_text p.text) = true
    · have h1 : (extract_and_clean p).1 = true := h
      simp only [List.filterMap_cons, List.map_cons, List.filter_cons, h1, h,
        if_true, extract_and_clean_snd]
      simp only [extract_and_clean_snd] at ih
      rw [ih]
    · simp at h
      have h1 : (extract_and_clean p).1 = false := h
      simp only [List.filterMap_cons, List.map_cons, List.filter_cons, h1, h,
        Bool.false_eq_true, if_false]
      rw [ih]

lemma is_valid_eq (s : List Char) :
    is_valid_text s = (!s.isEmpty && !s.all isPunctSpace) := by
  unfold is_valid_text matchesPunctSpaceOnly
  cases hi : s.isEmpty <;> cases ha : s.all isPunctSpace <;> simp [hi, ha]

/-- C5: extraction walks the body paragraph list, then every table's
rows, cells and cell paragraphs, and collects exactly the cleaned
strings that are nonempty and not composed solely of punctuation and
spaces, in traversal order. -/
theorem C5_extraction_order_filter (d : Document) :
    atList d =
      ((d.paragraphs ++ d.tables.flatMap (fun t => t.rows.flatMap
          (fun r => r.cells.flatMap (fun c => c.paragraphs)))).map
        (fun p => clean_text p.text)).filter
        (fun s => !s.isEmpty && !s.all isPunctSpace) := by
  have hfun : is_valid_text = fun s => !s.isEmpty && !s.all isPunctSpace :=
    funext is_valid_eq
  show atList d = ((docParas d).map (fun p => clean_text p.text)).filter _
  rw [atList, tiAll_eq, map_snd_extractPairs, hfun]

/-! Rewrite step (run.py lines 174-176): p_obj.text = ta[idx] or
original_txt, walking the collected nodes in extraction order. -/

/-- Python `x or y` on an optional string: the left value when it is a
truthy (nonempty) string, otherwise the right. -/
def pyOr (o : Option (List Char)) (d : List Char) : List Char :=
  match o with
  | none => d
  | some s => if s.isEmpty then d else s

/-- Rewrite of a paragraph list, threading the extraction index k: a
valid paragraph receives pyOr of its results-array entry and its
cleaned text (run.py line 175-176) and consumes one index; an invalid
one is untouched. -/
def rewriteParasL (ta : List (Option (List Char))) :
    Nat → List Paragraph → List Paragraph × Nat
  | k, [] => ([], k)
  | k, p :: ps =>
    if (extract_and_clean p).1 then
      (Paragraph.mk (pyOr (ta.getD k none) (extract_and_clean p).2) ::
        (rewriteParasL ta (k + 1) ps).1,
       (rewriteParasL ta (k + 1) ps).2)
    else
      (p :: (rewriteParasL ta k ps).1, (rewriteParasL ta k ps).2)

def rewriteCells (ta : List (Option (List Char))) :
    Nat → List Cell → List Cell × Nat
  | k, [] => ([], k)
  | k, c :: cs =>
    (Cell.mk (rewriteParasL ta k c.paragraphs).1 ::
      (rewriteCells ta (rewriteParasL ta k c.paragraphs).2 cs).1,
     (rewriteCells ta (rewriteParasL ta k c.paragraphs).2 cs).2)

def rewriteRows (ta : List (Option (List Char))) :
    Nat → List Row → List Row × Nat
  | k, [] => ([], k)
  | k, r :: rs =>
    (Row.mk (rewriteCells ta k r.cells).1 ::
      (rewriteRows ta (rewriteCells ta k r.cells).2 rs).1,
     (rewriteRows ta (rewriteCells ta k r.cells).2 rs).2)

def rewriteTables (ta : List (Option (List Char))) :
    Nat → List Table → List Table × Nat
  | k, [] => ([], k)
  | k, t :: ts =>
    (Table.mk (rewriteRows ta k t.rows).1 ::
      (rewriteTables ta (rewriteRows ta k t.rows).2 ts).1,
     (rewriteTables ta (rewriteRows ta k t.rows).2 ts).2)

/-- The whole rewrite loop over the document: collected nodes are
visited in the same order as extraction (body, then tables). -/
def rewriteDoc (ta : List (Option (List Char))) (d : Document) : Document :=
  Document.mk (rewriteParasL ta 0 d.paragraphs).1
    (rewriteTables ta (rewriteParasL ta 0 d.paragraphs).2 d.tables).1

lemma rewriteParasL_append (ta : List (Option (List Char))) :
    ∀ (a b : List Paragraph) (k : Nat),
    rewriteParasL ta k (a ++ b) =
      ((rewriteParasL ta k a).1 ++
        (rewriteParasL ta (rewriteParasL ta k a).2 b).1,
       (rewriteParasL ta (rewriteParasL ta k a).2 b).2) := by
  intro a
  induction a with
  | nil => intro b k; rfl
  | cons p a ih =>
    intro b k
    show rewriteParasL ta k ((p :: a) ++ b) = _
    rw [List.cons_append]
    by_cases h : (extract_and_clean p).1 = true
    · simp only [rewriteParasL, h, if_true, List.append_eq, List.cons_append, ih]
    · simp at h
      simp only [rewriteParasL, h, Bool.false_eq_true, if_false, List.append_eq,
        List.cons_append, ih]

lemma rewriteCells_flat (ta : List (Option (List Char))) :
    ∀ (cs : List Cell) (k : Nat),
    ((rewriteCells ta k cs).1.flatMap fun c => c.paragraphs) =
        (rewriteParasL ta k (cs.flatMap fun c => c.paragraphs)).1 ∧
      (rewriteCells ta k cs).2 =
        (rewriteParasL ta k (cs.flatMap fun c => c.paragraphs)).2 := by
  intro cs
  induction cs with
  | nil => intro k; exact ⟨rfl, rfl⟩
  | cons c cs ih =>
    intro k
    simp only [rewriteCells, List.flatMap_cons, rewriteParasL_append ta]
    constructor
    · exact congrArg (_ ++ ·) (ih _).1
    · exact (ih _).2

lemma rewriteRows_flat (ta : List (Option (List Char))) :
    ∀ (rs : List Row) (k : Nat),
    ((rewriteRows ta k rs).1.flatMap fun r =>
        r.cells.flatMap fun c => c.paragraphs) =
        (rewriteParasL ta k (rs.flatMap fun r =>
          r.cells.flatMap fun c => c.paragraphs)).1 ∧
      (rewriteRows ta k rs).2 =
        (rewriteParasL ta k (rs.flatMap fun r =>
          r.cells.flatMap fun c => c.paragraphs)).2 := by
  intro rs
  induction rs with
  | nil => intro k; exact ⟨rfl, rfl⟩
  | cons r rs ih =>
    intro k
    simp only [rewriteRows, List.flatMap_cons, rewriteParasL_append ta]
    obtain ⟨hc1, hc2⟩ := rewriteCells_flat ta r.cells k
    constructor
    · rw [hc1, hc2]
      exact congrArg (_ ++ ·) (ih _).1
    · rw [hc2]
      exact (ih _).2

lemma rewriteTables_flat (ta : List (Option (List Char))) :
    ∀ (ts : List Table) (k : Nat),
    ((rewriteTables ta k ts).1.flatMap fun t =>
        t.rows.flatMap fun r => r.cells.flatMap fun c => c.paragraphs) =
        (rewriteParasL ta k (ts.flatMap fun t =>
          t.rows.flatMap fun r => r.cells.flatMap fun c => c.paragraphs)).1 ∧
      (rewriteTables ta k ts).2 =
        (rewriteParasL ta k (ts.flatMap fun t =>
          t.rows.flatMap fun r => r.cells.flatMap fun c => c.paragraphs)).2 := by
  intro ts
  induction ts with
  | nil => intro k; exact ⟨rfl, rfl⟩
  | cons t ts ih =>
    intro k
    simp only [rewriteTables, List.flatMap_cons, rewriteParasL_append ta]
    obtain ⟨hr1, hr2⟩ := rewriteRows_flat ta t.rows k
    constructor
    · rw [hr1, hr2]
      exact congrArg (_ ++ ·) (ih _).1
    · rw [hr2]
      exact (ih _).2

/-- The rewritten document's paragraphs, flattened in traversal order,
are the rewrite of the flattened original paragraphs. -/
lemma docParas_rewriteDoc (ta : List (Option (List Char))) (d : Document) :
    docParas (rewriteDoc ta d) = (rewriteParasL ta 0 (docParas d)).1 := by
  unfold docParas rewriteDoc
  simp only
  obtain ⟨ht1, _⟩ := rewriteTables_flat ta d.tables (rewriteParasL ta 0 d.paragraphs).2
  rw [ht1]
  rw [rewriteParasL_append ta d.paragraphs _ 0]

lemma rewriteParasL_length (ta : List (Option (List Char))) :
    ∀ (ps : List Paragraph) (k : Nat),
    (rewriteParasL ta k ps).1.length = ps.length := by
  intro ps
  induction ps with
  | nil => intro k; rfl
  | cons p ps ih =>
    intro k
    by_cases h : (extract_and_clean p).1 = true
    · simp [rewriteParasL, h, ih]
    · simp at h
      simp [rewriteParasL, h, ih]

/-- Texts carried, after the rewrite, by the nodes that were collected
during extraction: mask the rewritten paragraph list by the original
validity test, position by position. -/
def selectValid : List Paragraph → List Paragraph → List (List Char)
  | [], _ => []
  | _ :: _, [] => []
  | p :: ps, q :: qs =>
    if (extract_and_clean p).1 then q.text :: selectValid ps qs
    else selectValid ps qs

/-- Intended per-node result of the rewrite loop: the idx-th collected
node receives pyOr of results entry idx and its cleaned original. -/
def specNew (ta : List (Option (List Char))) :
    Nat → List (Paragraph × List Char) → List (List Char)
  | _, [] => []
  | k, pc :: rest => pyOr (ta.getD k none) pc.2 :: specNew ta (k + 1) rest

lemma selectValid_rewrite (ta : List (Option (List Char))) :
    ∀ (ps : List Paragraph) (k : Nat),
    selectValid ps (rewriteParasL ta k ps).1 = specNew ta k (extractPairs ps) := by
  intro ps
  induction ps with
  | nil => intro k; rfl
  | cons p ps ih =>
    intro k
    by_cases h : (extract_and_clean p).1 = true
    · simp only [rewriteParasL, h, if_true, selectValid, extractPairs,
        List.filterMap_cons, specNew]
      exact congrArg (_ :: ·) (ih (k + 1))
    · simp at h
      simp only [rewriteParasL, h, Bool.false_eq_true, if_false, selectValid,
        extractPairs, List.filterMap_cons]
      exact ih k

lemma specNew_getElem? (ta : List (Option (List Char))) :
    ∀ (l : List (Paragraph × List Char)) (k idx : Nat),
    (specNew ta k l)[idx]? =
      (l[idx]?).map (fun pc => pyOr (ta.getD (k + idx) none) pc.2) := by
  intro l
  induction l with
  | nil => intro k idx; rfl
  | cons pc rest ih =>
    intro k idx
    cases idx with
    | zero => simp [specNew]
    | succ n =>
      simp only [specNew, List.getElem?_cons_succ]
      rw [ih (k + 1) n]
      have harith : k + 1 + n = k + (n + 1) := by omega
      rw [harith]

lemma extractPairs_valid : ∀ (ps : List Paragraph)
    (pc : Paragraph × List Char), pc ∈ extractPairs ps →
    is_valid_text pc.2 = true ∧ pyStrip pc.2 = pc.2 := by
  intro ps pc hmem
  rcases List.mem_filterMap.mp hmem with ⟨p, _, heq⟩
  by_cases h : (extract_and_clean p).1 = true
  · simp only [h, if_true] at heq
    rcases Option.some.inj heq with rfl
    refine ⟨?_, pyStrip_clean p.text⟩
    exact h
  · simp only [h] at heq
    simp at heq

lemma atList_mem_props (d : Document) (x : List Char) (hx : x ∈ atList d) :
    is_valid_text x = true ∧ pyStrip x = x := by
  unfold atList at hx
  rcases List.mem_map.mp hx with ⟨pc, hpc, rfl⟩
  rw [tiAll_eq] at hpc
  exact extractPairs_valid _ pc hpc

lemma valid_strip_ne (x : List Char) (h1 : is_valid_text x = true)
    (h2 : pyStrip x = x) : pyStrip x ≠ [] := by
  rw [h2]
  intro hnil
  rw [hnil] at h1
  exact absurd h1 (by decide)

lemma mem_sliceAt (l : List (List Char)) (i bs : Nat) (x : List Char)
    (hx : x ∈ sliceAt l i bs) : x ∈ l :=
  List.drop_subset i l (List.take_subset bs _ hx)

lemma tb_mem_strip (tr : Translator) (txts : List (List Char))
    (h : ∀ x ∈ txts, pyStrip x ≠ []) (y : List Char) (hy : y ∈ tb tr txts) :
    pyStrip y ≠ [] := by
  unfold tb at hy
  cases htr : tr txts with
  | none =>
    rw [htr] at hy
    exact h y hy
  | some res =>
    rw [htr] at hy
    rcases List.mem_map.mp hy with ⟨⟨r, txt⟩, hmem, rfl⟩
    have htxt : txt ∈ txts := (List.of_mem_zip hmem).2
    show pyStrip (pyOrRes r txt) ≠ []
    unfold pyOrRes
    cases r with
    | none => exact h txt htxt
    | some s =>
      by_cases hcond : (!s.isEmpty && !(pyStrip s).isEmpty) = true
      · simp only [hcond, if_true]
        simp only [Bool.and_eq_true, Bool.not_eq_true', List.isEmpty_eq_false]
          at hcond
        intro hnil
        have := hcond.2
        simp [hnil] at this
      · simp only [hcond, Bool.false_eq_true, if_false]
        exact h txt htxt

lemma runAll_entry_strip (d : Document) (tr : Translator)
    (order : List (Nat × List (List Char)))
    (hp : order.Perm (tasks (atList d))) (idx : Nat) (s : List Char)
    (hidx : idx < (atList d).length)
    (hs : (runAll tr (atList d) order).getD idx none = some s) :
    pyStrip s ≠ [] := by
  rw [List.getD_eq_getElem?_getD,
    runAll_getElem? tr (atList d) order hp idx hidx] at hs
  simp only [Option.getD_some] at hs
  have hsmem : s ∈ tb tr (sliceAt (atList d) (BS * (idx / BS)) BS) :=
    List.getElem?_mem hs
  refine tb_mem_strip tr _ ?_ s hsmem
  intro x hx
  have hxl : x ∈ atList d := mem_sliceAt _ _ _ x hx
  obtain ⟨h1, h2⟩ := atList_mem_props d x hxl
  exact valid_strip_ne x h1 h2

/-- C6: the rewrite step only reassigns the text of existing paragraph
nodes: the output document has exactly as many body paragraphs, and as
many paragraphs in total (body and table cells), as the input. -/
theorem C6_structure_preserved (ta : List (Option (List Char))) (d : Document) :
    (rewriteDoc ta d).paragraphs.length = d.paragraphs.length ∧
    (docParas (rewriteDoc ta d)).length = (docParas d).length := by
  constructor
  · show (rewriteParasL ta 0 d.paragraphs).1.length = _
    exact rewriteParasL_length ta d.paragraphs 0
  · rw [docParas_rewriteDoc]
    exact rewriteParasL_length ta (docParas d) 0

/-- C3: after all tasks complete, the idx-th collected node's text
becomes the translated string at index idx, and when that entry failed
or is empty (None, or whitespace-only, which forces the empty string
since results entries are never whitespace-only) the node's text is the
original extracted string. -/
theorem C3_rewrite_fallback (d : Document) (tr : Translator)
    (order : List (Nat × List (List Char)))
    (hp : order.Perm (tasks (atList d))) (idx : Nat)
    (hidx : idx < (tiAll d).length) :
    (selectValid (docParas d)
        (docParas (rewriteDoc (runAll tr (atList d) order) d)))[idx]? =
      some (pyOr ((runAll tr (atList d) order).getD idx none)
        ((atList d).getD idx [])) ∧
    (((runAll tr (atList d) order).getD idx none = none ∨
        pyStrip (((runAll tr (atList d) order).getD idx none).getD []) = []) →
      (selectValid (docParas d)
          (docParas (rewriteDoc (runAll tr (atList d) order) d)))[idx]? =
        some ((atList d).getD idx [])) := by
  have horig : (atList d).getD idx [] = ((tiAll d)[idx]?.map Prod.snd).getD [] := by
    rw [List.getD_eq_getElem?_getD]
    unfold atList
    rw [List.getElem?_map]
  have hmain : (selectValid (docParas d)
      (docParas (rewriteDoc (runAll tr (atList d) order) d)))[idx]? =
      some (pyOr ((runAll tr (atList d) order).getD idx none)
        ((atList d).getD idx [])) := by
    rw [docParas_rewriteDoc, selectValid_rewrite, ← tiAll_eq, specNew_getElem?]
    rw [List.getElem?_eq_getElem hidx]
    rw [horig, List.getElem?_eq_getElem hidx]
    simp
  refine ⟨hmain, ?_⟩
  intro hfb
  rw [hmain]
  rcases hentry : (runAll tr (atList d) order).getD idx none with _ | s
  · simp [pyOr]
  · rcases hfb with hfb | hfb
    · rw [hentry] at hfb
      cases hfb
    · rw [hentry] at hfb
      simp only [Option.getD_some] at hfb
      by_cases hse : s.isEmpty = true
      · simp [pyOr, hse]
      · exfalso
        have hlen : idx < (atList d).length := by
          unfold atList
          simpa [List.length_map] using hidx
        exact runAll_entry_strip d tr order hp idx s hlen hentry hfb

/-- Concrete one-paragraph document. -/
def wdoc : Document := Document.mk [Paragraph.mk (['h', 'i'])] []

theorem C3_rewrite_fallback_witness :
    (tasks (atList wdoc)).Perm (tasks (atList wdoc)) ∧
    0 < (tiAll wdoc).length ∧
    (selectValid (docParas wdoc)
        (docParas (rewriteDoc
          (runAll wtr1 (atList wdoc) (tasks (atList wdoc))) wdoc)))[0]? =
      some (pyOr ((runAll wtr1 (atList wdoc) (tasks (atList wdoc))).getD 0 none)
        ((atList wdoc).getD 0 [])) :=
  ⟨List.Perm.refl _, by decide,
   (C3_rewrite_fallback wdoc wtr1 (tasks (atList wdoc))
     (List.Perm.refl _) 0 (by decide)).1⟩

lemma pyOr_ne_nil (o : Option (List Char)) (d : List Char) (hd : d ≠ []) :
    pyOr o d ≠ [] := by
  unfold pyOr
  cases o with
  | none => exact hd
  | some s =>
    by_cases hs : s.isEmpty = true
    · simp [hs, hd]
    · simp at hs
      simp [hs]

lemma mem_specNew (ta : List (Option (List Char))) :
    ∀ (l : List (Paragraph × List Char)) (k : Nat) (x : List Char),
    x ∈ specNew ta k l → (∀ pc ∈ l, pc.2 ≠ []) → x ≠ [] := by
  intro l
  induction l with
  | nil => intro k x hx _; simp [specNew] at hx
  | cons pc rest ih =>
    intro k x hx hall
    rcases List.mem_cons.mp hx with hx | hx
    · subst hx
      exact pyOr_ne_nil _ _ (hall pc (List.mem_cons_self pc rest))
    · exact ih (k + 1) x hx (fun q hq => hall q (List.mem_cons_of_mem pc hq))

/-- C10: after the rewrite step every collected node's text is a
nonempty string: the write-back keeps the translated string only when
it is truthy and otherwise falls back to the nonempty original, so no
collected paragraph is ever blanked. -/
theorem C10_no_blank_nodes (d : Document) (ta : List (Option (List Char)))
    (x : List Char)
    (hx : x ∈ selectValid (docParas d) (docParas (rewriteDoc ta d))) :
    x ≠ [] := by
  rw [docParas_rewriteDoc, selectValid_rewrite, ← tiAll_eq] at hx
  refine mem_specNew ta (tiAll d) 0 x hx ?_
  intro pc hpc
  rw [tiAll_eq] at hpc
  have h1 := (extractPairs_valid _ pc hpc).1
  intro hnil
  rw [hnil] at h1
  exact absurd h1 (by decide)

theorem C10_no_blank_nodes_witness :
    (['h', 'i'] ∈ selectValid (docParas wdoc) (docParas (rewriteDoc [] wdoc))) ∧
    (['h', 'i'] : List Char) ≠ [] :=
  ⟨by decide, C10_no_blank_nodes wdoc [] (['h', 'i']) (by decide)⟩

/-! Top-level run (run.py lines 120-201): halt with an error when no
valid text was extracted, otherwise translate, rewrite, and offer the
result under the name source2target_originalname. -/

/-- The st.error message shown when no valid text is extracted. -/
def noValidTextMsg : List Char := "❌ No valid text in document".data

/-- One run of the app on a parsed document: on zero extracted strings
it stops with the error banner and produces no output document; else it
returns the rewritten document and the download file name built as
source-language name, then 2, target-language name, underscore, and the
uploaded file's name. -/
def runApp (tr : Translator) (order : List (Nat × List (List Char)))
    (srcName tgtName fname : List Char) (d : Document) :
    Except (List Char) (Document × List Char) :=
  if (atList d).length = 0 then
    Except.error noValidTextMsg
  else
    Except.ok (rewriteDoc (runAll tr (atList d) order) d,
      srcName ++ ['2'] ++ tgtName ++ ['_'] ++ fname)

/-- C4: a document from which zero valid text strings are extracted
makes the run stop with the reported error, before any translation, and
no output document is produced. -/
theorem C4_empty_document_halts (tr : Translator)
    (order : List (Nat × List (List Char)))
    (srcName tgtName fname : List Char) (d : Document)
    (h : atList d = []) :
    runApp tr order srcName tgtName fname d = Except.error noValidTextMsg ∧
    ∀ res : Document × List Char,
      runApp tr order srcName tgtName fname d ≠ Except.ok res := by
  have hz : (atList d).length = 0 := by rw [h]; rfl
  constructor
  · unfold runApp
    rw [if_pos hz]
  · intro res hok
    unfold runApp at hok
    rw [if_pos hz] at hok
    cases hok

/-- Concrete document whose only paragraph cleans to punctuation. -/
def wdocPunct : Document := Document.mk [Paragraph.mk (['.', '.', ' '])] []

theorem C4_empty_document_halts_witness :
    atList wdocPunct = [] ∧
    runApp wtr1 (tasks (atList wdocPunct)) (['F', 'r']) (['E', 'n']) (['d'])
      wdocPunct = Except.error noValidTextMsg :=
  ⟨by decide,
   (C4_empty_document_halts wtr1 (tasks (atList wdocPunct))
     (['F', 'r']) (['E', 'n']) (['d']) wdocPunct (by decide)).1⟩

/-- C8: every successful run offers the download under the name formed
as the source-language name, the character 2, the target-language name,
an underscore, and the original uploaded file's name. -/
theorem C8_download_name (tr : Translator)
    (order : List (Nat × List (List Char)))
    (srcName tgtName fname : List Char) (d : Document)
    (outDoc : Document) (nm : List Char)
    (h : runApp tr order srcName tgtName fname d = Except.ok (outDoc, nm)) :
    nm = srcName ++ ['2'] ++ tgtName ++ ['_'] ++ fname := by
  unfold runApp at h
  by_cases hl : (atList d).length = 0
  · rw [if_pos hl] at h
    cases h
  · rw [if_neg hl] at h
    injection h with hpair
    injection hpair with hdoc hname
    exact hname.symm

theorem C8_download_name_witness :
    runApp wtr1 (tasks (atList wdoc)) (['F', 'r']) (['E', 'n']) (['d']) wdoc =
      Except.ok (rewriteDoc (runAll wtr1 (atList wdoc) (tasks (atList wdoc))) wdoc,
        ['F', 'r', '2', 'E', 'n', '_', 'd']) ∧
    (['F', 'r', '2', 'E', 'n', '_', 'd'] : List Char) =
      ['F', 'r'] ++ ['2'] ++ ['E', 'n'] ++ ['_'] ++ ['d'] :=
  ⟨rfl,
   C8_download_name wtr1 (tasks (atList wdoc)) (['F', 'r']) (['E', 'n']) (['d'])
     wdoc (rewriteDoc (runAll wtr1 (atList wdoc) (tasks (atList wdoc))) wdoc)
     (['F', 'r', '2', 'E', 'n', '_', 'd']) rfl⟩

end DocxT
